import Mathlib

/-!
# keygroup: reconciliation of a set of string keys with one goroutine per key

Shallow embedding of `keygroup.go`.

* `strset.Set` (github.com/scylladb/go-set) is a hash set of strings.  It is embedded as a
  list of its elements: membership is what matters, the position of an element stands for
  the (unspecified) iteration order of the Go map, and `List()` enumerates every element once.
* `context.Context` values are embedded by their identity: `Ctx.main` is `kg.mainCtx`, and
  `Ctx.child n` is the `n`-th context made by `context.WithCancel(kg.mainCtx)` in `run`.
  A `context.CancelFunc` is embedded as the context it cancels.
* `map[string]context.CancelFunc` is embedded as a function `String → Option Ctx`; a lookup
  of an absent key gives the nil function, here `none`, and calling it panics.
* A panic is embedded as the result `none`.
* The goroutine spawned by `run` is embedded as an entry of `running`; the return of the
  user function followed by `kg.wg.Done(); kg.keys.Remove(localKey)` is the event `workerDone`.
-/

namespace keygroup

/-- Identity of a cancellable context: the root `kg.mainCtx`, or a per-key context derived
from it by `context.WithCancel(kg.mainCtx)`. -/
inductive Ctx where
  | main : Ctx
  | child : Nat → Ctx
  deriving DecidableEq, Repr

/-- Embedding of `strset.Set`: the elements of the set. -/
abbrev StrSet := List String

/-- Embedding of `strset.New(items...)`. -/
def StrSet.New (items : List String) : StrSet := items.dedup

/-- Embedding of `strset.Difference(set1, set2)`: the items of `set1` that are not in `set2`. -/
def StrSet.Difference (set1 set2 : StrSet) : StrSet := set1.filter (fun k => decide (k ∉ set2))

/-- Embedding of `strset.Union(set1, set2)`. -/
def StrSet.Union (set1 set2 : StrSet) : StrSet := StrSet.New (set1 ++ set2)

/-- Embedding of `(*Set).List()`: every element, once. -/
def StrSet.list (s : StrSet) : List String := s.dedup

/-- Embedding of `(*Set).Remove(items...)`. -/
def StrSet.Remove (s : StrSet) (items : List String) : StrSet :=
  s.filter (fun k => decide (k ∉ items))

/-- Embedding of `struct KeyGroup`, together with the part of the environment it acts on. -/
structure KeyGroup where
  /-- Field `kg.keys`. -/
  keys : StrSet
  /-- Field `kg.cancel`. -/
  cancel : String → Option Ctx
  /-- Counter of `kg.wg`. -/
  wg : Int
  /-- Environment: number of the next context that `context.WithCancel(kg.mainCtx)` makes. -/
  fresh : Nat
  /-- Environment: the contexts whose `CancelFunc` has been called, latest first. -/
  cancelled : List Ctx
  /-- Environment: the goroutines started by `run` whose function has not returned yet,
  each with its `localKey` and its `ctx`, in the order of their start. -/
  running : List (String × Ctx)


/-- The map write `m[key] = f`. -/
def mapSet (m : String → Option Ctx) (key : String) (f : Ctx) : String → Option Ctx :=
  fun k => if k = key then some f else m k

/-- The map deletion `delete(m, key)`. -/
def mapDelete (m : String → Option Ctx) (key : String) : String → Option Ctx :=
  fun k => if k = key then none else m k

/-- Embedding of `NewKeyGroup`: no key, the root handle stored under `"main"`. -/
def NewKeyGroup : KeyGroup :=
  { keys := StrSet.New [],
    cancel := mapSet (fun _ => none) "main" Ctx.main,
    wg := 0,
    fresh := 1,
    cancelled := [],
    running := [] }

/-- Whether `ctx.Done()` is closed: the context's own `CancelFunc` was called, or the one of
`kg.mainCtx`, from which every per-key context derives. -/
def Cancelled (kg : KeyGroup) (c : Ctx) : Prop :=
  c ∈ kg.cancelled ∨ Ctx.main ∈ kg.cancelled

instance (kg : KeyGroup) (c : Ctx) : Decidable (Cancelled kg c) := by
  unfold Cancelled; infer_instance

/-- Embedding of `(*KeyGroup).Cancel`: calls `kg.cancel["main"]`, which panics when the
entry is absent. -/
def Cancel (kg : KeyGroup) : Option KeyGroup :=
  match kg.cancel "main" with
  | none => none
  | some f => some { kg with cancelled := f :: kg.cancelled }

/-- Embedding of `(*KeyGroup).run`: for each key in turn a context is derived from
`kg.mainCtx`, its `CancelFunc` is stored under the key, the wait group is incremented and a
goroutine is started. -/
def run : List String → KeyGroup → KeyGroup
  | [], kg => kg
  | key :: keys, kg =>
    run keys { kg with
      cancel := mapSet kg.cancel key (Ctx.child kg.fresh),
      wg := kg.wg + 1,
      fresh := kg.fresh + 1,
      running := kg.running ++ [(key, Ctx.child kg.fresh)] }

/-- Embedding of `(*KeyGroup).stop`: for each key in turn `kg.cancel[key]` is called, which
panics when the entry is absent, and the entry is deleted. -/
def stop : List String → KeyGroup → Option KeyGroup
  | [], kg => some kg
  | key :: keys, kg =>
    match kg.cancel key with
    | none => none
    | some f =>
      stop keys { kg with
        cancelled := f :: kg.cancelled,
        cancel := mapDelete kg.cancel key }

/-- Embedding of `(*KeyGroup).Update`. -/
def Update (keys : List String) (kg : KeyGroup) : Option KeyGroup :=
  let current := StrSet.New keys
  let toStart := StrSet.Difference current kg.keys
  let toStop := StrSet.Difference kg.keys current
  (stop (StrSet.list toStop) (run (StrSet.list toStart) kg)).map
    (fun kg2 => { kg2 with keys := current })

/-- Embedding of `(*KeyGroup).Add`. -/
def Add (keys : List String) (kg : KeyGroup) : Option KeyGroup :=
  Update (StrSet.list kg.keys ++ keys) kg

/-- Embedding of `(*KeyGroup).StopKeys`. -/
def StopKeys (keys : List String) (kg : KeyGroup) : Option KeyGroup :=
  (stop keys kg).map (fun kg2 => { kg2 with keys := StrSet.Remove kg2.keys keys })

/-- The tail of the goroutine started by `run` for `localKey` with context `ctx`, run when
the user function returns: `kg.wg.Done()` and `kg.keys.Remove(localKey)`.  The event is
possible only for a goroutine that is running. -/
def workerDone (localKey : String) (ctx : Ctx) (kg : KeyGroup) : Option KeyGroup :=
  if (localKey, ctx) ∈ kg.running then
    some { kg with
      wg := kg.wg - 1,
      keys := StrSet.Remove kg.keys [localKey],
      running := kg.running.erase (localKey, ctx) }
  else none

/-- One event on a key group: a call of the public interface, or the return of a worker. -/
inductive Event where
  | update (keys : List String)
  | add (keys : List String)
  | stopKeys (keys : List String)
  | cancel
  | done (localKey : String) (ctx : Ctx)

/-- Effect of one event, `none` when the call panics or the event is impossible. -/
def step (kg : KeyGroup) : Event → Option KeyGroup
  | Event.update keys => Update keys kg
  | Event.add keys => Add keys kg
  | Event.stopKeys keys => StopKeys keys kg
  | Event.cancel => Cancel kg
  | Event.done localKey ctx => workerDone localKey ctx kg

/-- Effect of a sequence of events taken one at a time, each completing before the next. -/
def exec : List Event → KeyGroup → Option KeyGroup
  | [], kg => some kg
  | e :: es, kg => (step kg e).bind (exec es)

/-- The states a key group made by `NewKeyGroup` can be in. -/
def Reachable (kg : KeyGroup) : Prop := ∃ es, exec es NewKeyGroup = some kg

/-- The list `toStart.List()` of `Update`. -/
def toStart (keys : List String) (kg : KeyGroup) : List String :=
  StrSet.list (StrSet.Difference (StrSet.New keys) kg.keys)

/-- The list `toStop.List()` of `Update`. -/
def toStop (keys : List String) (kg : KeyGroup) : List String :=
  StrSet.list (StrSet.Difference kg.keys (StrSet.New keys))

/-- The handles that `stop keys kg` calls, each with the key it is stored under. -/
def stopped (keys : List String) (kg : KeyGroup) : List (String × Ctx) :=
  keys.filterMap (fun k => (kg.cancel k).map (fun f => (k, f)))

/-- The words of the specification for `Add`: reconcile with the union of the active keys
and the given keys. -/
def AddSpec (keys : List String) (kg : KeyGroup) : Option KeyGroup :=
  Update (StrSet.list (StrSet.Union kg.keys (StrSet.New keys))) kg

/-- Every active key has an entry in the handle table. -/
def HandlesActive (kg : KeyGroup) : Prop := ∀ k ∈ kg.keys, kg.cancel k ≠ none

/-- The state of a new key group after `Add("a", "b")`, both workers running. -/
def twoKeys : KeyGroup :=
  { keys := ["a", "b"],
    cancel := mapSet (mapSet NewKeyGroup.cancel "a" (Ctx.child 1)) "b" (Ctx.child 2),
    wg := 2,
    fresh := 3,
    cancelled := [],
    running := [("a", Ctx.child 1), ("b", Ctx.child 2)] }

/-- The handles of the table are kept apart: the per-key contexts in it were made before
now, no context is stored under two keys, and no active key holds the handle of the root. -/
def HandlesApart (kg : KeyGroup) : Prop :=
  (∀ k n, kg.cancel k = some (Ctx.child n) → n < kg.fresh) ∧
  (∀ j k c, kg.cancel j = some c → kg.cancel k = some c → j = k) ∧
  (∀ k ∈ kg.keys, kg.cancel k ≠ some Ctx.main)

/-- The running workers own their contexts: the context of each was made before now, and a
context whose handle is stored under a key belongs to no running worker of another key. -/
def WorkersOwn (kg : KeyGroup) : Prop :=
  (∀ w ∈ kg.running, ∃ n, w.2 = Ctx.child n ∧ n < kg.fresh) ∧
  (∀ k c, kg.cancel k = some c → ∀ w ∈ kg.running, w.2 = c → w.1 = k)

/-! ## The loops `run` and `stop` -/

/-- The goroutines that `run keys kg` starts: the keys in turn, each with the next context. -/
def started (keys : List String) (kg : KeyGroup) : List (String × Ctx) :=
  keys.zip ((List.range' kg.fresh keys.length).map Ctx.child)

theorem run_keys (ks : List String) (kg : KeyGroup) : (run ks kg).keys = kg.keys := by
  induction ks generalizing kg with
  | nil => rfl
  | cons k ks ih => simp [run, ih]

theorem run_cancelled (ks : List String) (kg : KeyGroup) :
    (run ks kg).cancelled = kg.cancelled := by
  induction ks generalizing kg with
  | nil => rfl
  | cons k ks ih => simp [run, ih]

theorem run_fresh (ks : List String) (kg : KeyGroup) :
    (run ks kg).fresh = kg.fresh + ks.length := by
  induction ks generalizing kg with
  | nil => rfl
  | cons k ks ih => simp [run, ih]; omega

theorem run_wg (ks : List String) (kg : KeyGroup) :
    (run ks kg).wg = kg.wg + ks.length := by
  induction ks generalizing kg with
  | nil => simp [run]
  | cons k ks ih => simp [run, ih]; omega

theorem run_running (ks : List String) (kg : KeyGroup) :
    (run ks kg).running = kg.running ++ started ks kg := by
  induction ks generalizing kg with
  | nil => simp [run, started]
  | cons k ks ih => simp [run, ih, started, List.range'_succ]

theorem run_cancel_of_not_mem (ks : List String) (kg : KeyGroup) (k : String) (h : k ∉ ks) :
    (run ks kg).cancel k = kg.cancel k := by
  induction ks generalizing kg with
  | nil => rfl
  | cons a ks ih =>
    simp only [List.mem_cons, not_or] at h
    simp [run, ih _ h.2, mapSet, h.1]

theorem started_fst (ks : List String) (kg : KeyGroup) :
    (started ks kg).map Prod.fst = ks := by
  simp [started, List.map_fst_zip]

theorem started_snd (ks : List String) (kg : KeyGroup) :
    (started ks kg).map Prod.snd = (List.range' kg.fresh ks.length).map Ctx.child := by
  simp [started, List.map_snd_zip]

theorem run_cancel_of_mem (ks : List String) (kg : KeyGroup) (hnd : ks.Nodup)
    (w : String × Ctx) (hw : w ∈ started ks kg) : (run ks kg).cancel w.1 = some w.2 := by
  induction ks generalizing kg with
  | nil => simp [started] at hw
  | cons a ks ih =>
    rw [List.nodup_cons] at hnd
    simp only [started, List.length_cons, List.range'_succ, List.map_cons, List.zip_cons_cons,
      List.mem_cons] at hw
    rcases hw with rfl | hw
    · simp [run, run_cancel_of_not_mem _ _ _ hnd.1, mapSet]
    · simp only [run]
      exact ih _ hnd.2 hw

/-- What a call of `stop` that returns has done. -/
theorem stop_some (ks : List String) (kg kg2 : KeyGroup) (h : stop ks kg = some kg2) :
    kg2.keys = kg.keys ∧ kg2.wg = kg.wg ∧ kg2.fresh = kg.fresh ∧ kg2.running = kg.running ∧
    (∀ k, kg2.cancel k = if k ∈ ks then none else kg.cancel k) ∧
    kg2.cancelled = (ks.filterMap kg.cancel).reverse ++ kg.cancelled ∧
    ks.Nodup ∧ ∀ k ∈ ks, kg.cancel k ≠ none := by
  induction ks generalizing kg with
  | nil =>
    simp only [stop, Option.some.injEq] at h
    subst h
    simp
  | cons a ks ih =>
    simp only [stop] at h
    cases hc : kg.cancel a with
    | none => simp [hc] at h
    | some f =>
      simp only [hc] at h
      obtain ⟨h1, h2, h3, h4, h5, h6, h7, h8⟩ := ih _ h
      have ha : a ∉ ks := by
        intro ha
        exact h8 a ha (by simp [mapDelete])
      have hfm : ks.filterMap (mapDelete kg.cancel a) = ks.filterMap kg.cancel := by
        apply List.filterMap_congr
        intro k hk
        have : k ≠ a := fun e => ha (e ▸ hk)
        simp [mapDelete, this]
      refine ⟨h1, h2, h3, h4, ?_, ?_, List.nodup_cons.mpr ⟨ha, h7⟩, ?_⟩
      · intro k
        rw [h5 k]
        by_cases hk : k ∈ ks
        · simp [hk]
        · by_cases hka : k = a
          · simp [hka, mapDelete]
          · simp [hk, hka, mapDelete]
      · rw [h6, hfm]
        simp [List.filterMap_cons, hc]
      · intro k hk
        rcases List.mem_cons.mp hk with rfl | hk
        · simp [hc]
        · have hne : k ≠ a := fun e => ha (e ▸ hk)
          have := h8 k hk
          simpa [mapDelete, hne] using this

/-- The loop `stop` returns when it is given distinct keys that all have a handle. -/
theorem stop_isSome (ks : List String) (kg : KeyGroup) (hnd : ks.Nodup)
    (hc : ∀ k ∈ ks, kg.cancel k ≠ none) : ∃ kg2, stop ks kg = some kg2 := by
  induction ks generalizing kg with
  | nil => exact ⟨kg, rfl⟩
  | cons a ks ih =>
    rw [List.nodup_cons] at hnd
    cases hca : kg.cancel a with
    | none => exact absurd hca (hc a (List.mem_cons_self _ _))
    | some f =>
      simp only [stop, hca]
      apply ih _ hnd.2
      intro k hk
      have hne : k ≠ a := fun e => hnd.1 (e ▸ hk)
      simpa [mapDelete, hne] using hc k (List.mem_cons_of_mem _ hk)

/-- The loop `stop` panics when a key has no handle. -/
theorem stop_none_of_missing (ks : List String) (kg : KeyGroup) (k : String) (hk : k ∈ ks)
    (hc : kg.cancel k = none) : stop ks kg = none := by
  cases h : stop ks kg with
  | none => rfl
  | some kg2 => exact absurd hc ((stop_some ks kg kg2 h).2.2.2.2.2.2.2 k hk)

/-! ## The reconciliation `Update` -/

theorem mem_toStart (D : List String) (kg : KeyGroup) (k : String) :
    k ∈ toStart D kg ↔ k ∈ D ∧ k ∉ kg.keys := by
  simp [toStart, StrSet.list, StrSet.Difference, StrSet.New]

theorem mem_toStop (D : List String) (kg : KeyGroup) (k : String) :
    k ∈ toStop D kg ↔ k ∈ kg.keys ∧ k ∉ D := by
  simp [toStop, StrSet.list, StrSet.Difference, StrSet.New]

theorem nodup_toStart (D : List String) (kg : KeyGroup) : (toStart D kg).Nodup :=
  List.nodup_dedup _

theorem nodup_toStop (D : List String) (kg : KeyGroup) : (toStop D kg).Nodup :=
  List.nodup_dedup _

theorem Update_eq (D : List String) (kg : KeyGroup) :
    Update D kg = (stop (toStop D kg) (run (toStart D kg) kg)).map
      (fun kg2 => { kg2 with keys := StrSet.New D }) := rfl

theorem stopped_snd (ks : List String) (kg : KeyGroup) :
    (stopped ks kg).map Prod.snd = ks.filterMap kg.cancel := by
  induction ks with
  | nil => rfl
  | cons a ks ih =>
    cases h : kg.cancel a <;> simp_all [stopped, List.filterMap_cons]

theorem stopped_fst (ks : List String) (kg : KeyGroup) (h : ∀ k ∈ ks, kg.cancel k ≠ none) :
    (stopped ks kg).map Prod.fst = ks := by
  induction ks with
  | nil => rfl
  | cons a ks ih =>
    have ha := h a (List.mem_cons_self _ _)
    have ih2 := ih (fun k hk => h k (List.mem_cons_of_mem _ hk))
    cases hc : kg.cancel a with
    | none => exact absurd hc ha
    | some f =>
      simp only [stopped, List.filterMap_cons, hc, Option.map_some', List.map_cons]
      simp only [stopped] at ih2
      rw [ih2]

theorem mem_stopped (ks : List String) (kg : KeyGroup) (p : String × Ctx) :
    p ∈ stopped ks kg ↔ p.1 ∈ ks ∧ kg.cancel p.1 = some p.2 := by
  obtain ⟨k, f⟩ := p
  simp only [stopped, List.mem_filterMap, Option.map_eq_some', Prod.mk.injEq]
  constructor
  · rintro ⟨a, ha, b, hb, rfl, rfl⟩
    exact ⟨ha, hb⟩
  · rintro ⟨h1, h2⟩
    exact ⟨k, h1, f, h2, rfl, rfl⟩

/-- What a call of `Update` that returns has done. -/
theorem Update_some (D : List String) (kg kg2 : KeyGroup) (h : Update D kg = some kg2) :
    kg2.keys = StrSet.New D ∧
    kg2.wg = kg.wg + (toStart D kg).length ∧
    kg2.fresh = kg.fresh + (toStart D kg).length ∧
    kg2.running = kg.running ++ started (toStart D kg) kg ∧
    (∀ k, kg2.cancel k =
      if k ∈ toStop D kg then none else (run (toStart D kg) kg).cancel k) ∧
    kg2.cancelled = ((stopped (toStop D kg) kg).map Prod.snd).reverse ++ kg.cancelled ∧
    ∀ k ∈ toStop D kg, kg.cancel k ≠ none := by
  rw [Update_eq] at h
  cases hs : stop (toStop D kg) (run (toStart D kg) kg) with
  | none => simp [hs] at h
  | some kg1 =>
    simp only [hs, Option.map_some', Option.some.injEq] at h
    subst h
    obtain ⟨_, h2, h3, h4, h5, h6, _, h8⟩ := stop_some _ _ _ hs
    have hdis : ∀ k ∈ toStop D kg, (run (toStart D kg) kg).cancel k = kg.cancel k := by
      intro k hk
      apply run_cancel_of_not_mem
      rw [mem_toStart]
      rw [mem_toStop] at hk
      tauto
    refine ⟨rfl, ?_, ?_, ?_, h5, ?_, ?_⟩
    · simp [h2, run_wg]
    · simp [h3, run_fresh]
    · simp [h4, run_running]
    · simp only [h6, run_cancelled, stopped_snd]
      rw [List.filterMap_congr hdis]
    · intro k hk
      rw [← hdis k hk]
      exact h8 k hk

/-- A call of `Update` returns when every key it stops has a handle. -/
theorem Update_isSome (D : List String) (kg : KeyGroup)
    (h : ∀ k ∈ kg.keys, k ∉ D → kg.cancel k ≠ none) : ∃ kg2, Update D kg = some kg2 := by
  rw [Update_eq]
  have hs : ∃ kg1, stop (toStop D kg) (run (toStart D kg) kg) = some kg1 := by
    apply stop_isSome _ _ (nodup_toStop D kg)
    intro k hk
    have hk2 := (mem_toStop D kg k).mp hk
    rw [run_cancel_of_not_mem]
    · exact h k hk2.1 hk2.2
    · rw [mem_toStart]
      tauto
  obtain ⟨kg1, hs⟩ := hs
  exact ⟨_, by rw [hs]; rfl⟩

/-- What `Update` does, for a state in which every key that is active and not wanted any
more has a handle: the call returns, it starts one worker with a new context for each key of
`D` that is not active, it calls and deletes the handle of each active key that is not in
`D`, it leaves every other entry of the handle table alone, and the keys become those of `D`. -/
theorem Update_spec (D : List String) (kg : KeyGroup)
    (h : ∀ k ∈ kg.keys, k ∉ D → kg.cancel k ≠ none) :
    ∃ (kg2 : KeyGroup) (ws hs : List (String × Ctx)),
      Update D kg = some kg2 ∧
      kg2.running = kg.running ++ ws ∧
      (ws.map Prod.fst).Nodup ∧
      (∀ k, k ∈ ws.map Prod.fst ↔ k ∈ D ∧ k ∉ kg.keys) ∧
      ws.map Prod.snd = (List.range' kg.fresh ws.length).map Ctx.child ∧
      (∀ w ∈ ws, kg2.cancel w.1 = some w.2) ∧
      kg2.wg = kg.wg + ws.length ∧
      kg2.fresh = kg.fresh + ws.length ∧
      kg2.cancelled = hs.map Prod.snd ++ kg.cancelled ∧
      (hs.map Prod.fst).Nodup ∧
      (∀ k, k ∈ hs.map Prod.fst ↔ k ∈ kg.keys ∧ k ∉ D) ∧
      (∀ p ∈ hs, kg.cancel p.1 = some p.2 ∧ kg2.cancel p.1 = none) ∧
      (∀ k, (k ∈ D ↔ k ∈ kg.keys) → kg2.cancel k = kg.cancel k) ∧
      kg2.keys = StrSet.New D := by
  obtain ⟨kg2, hU⟩ := Update_isSome D kg h
  obtain ⟨h1, h2, h3, h4, h5, h6, h7⟩ := Update_some D kg kg2 hU
  have hlen : (started (toStart D kg) kg).length = (toStart D kg).length := by
    rw [← List.length_map (started (toStart D kg) kg) Prod.fst, started_fst]
  have hfst : ((stopped (toStop D kg) kg).reverse).map Prod.fst = (toStop D kg).reverse := by
    rw [List.map_reverse, stopped_fst _ _ h7]
  refine ⟨kg2, started (toStart D kg) kg, (stopped (toStop D kg) kg).reverse, hU, h4, ?_, ?_,
    ?_, ?_, ?_, ?_, ?_, ?_, ?_, ?_, ?_, h1⟩
  · rw [started_fst]
    exact nodup_toStart D kg
  · intro k
    rw [started_fst, mem_toStart]
  · rw [started_snd, hlen]
  · intro w hw
    rw [h5]
    have hw1 : w.1 ∈ toStart D kg := by
      rw [← started_fst (toStart D kg) kg]
      exact List.mem_map_of_mem _ hw
    have hns : w.1 ∉ toStop D kg := by
      rw [mem_toStart] at hw1
      rw [mem_toStop]
      tauto
    rw [if_neg hns]
    exact run_cancel_of_mem _ _ (nodup_toStart D kg) w hw
  · rw [h2, hlen]
  · rw [h3, hlen]
  · rw [h6, List.map_reverse]
  · rw [hfst]
    exact List.nodup_reverse.mpr (nodup_toStop D kg)
  · intro k
    rw [hfst, List.mem_reverse, mem_toStop]
  · intro p hp
    rw [List.mem_reverse, mem_stopped] at hp
    refine ⟨hp.2, ?_⟩
    rw [h5, if_pos hp.1]
  · intro k hk
    rw [h5]
    have hns : k ∉ toStop D kg := by
      rw [mem_toStop]
      tauto
    rw [if_neg hns]
    apply run_cancel_of_not_mem
    rw [mem_toStart]
    tauto

/-- The result of `Update` depends on its argument through `strset.New(keys...)` only. -/
theorem Update_congr (D1 D2 : List String) (kg : KeyGroup)
    (h : StrSet.New D1 = StrSet.New D2) : Update D1 kg = Update D2 kg := by
  simp only [Update, h]

theorem dedup_union_left (l L : List String) : l.dedup ∪ L = l ∪ L := by
  induction l with
  | nil => rfl
  | cons a l ih =>
    by_cases ha : a ∈ l
    · rw [List.dedup_cons_of_mem ha, ih, List.cons_union]
      rw [List.insert_of_mem]
      exact List.mem_union_left ha L
    · rw [List.dedup_cons_of_not_mem ha, List.cons_union, List.cons_union, ih]

theorem Add_eq_AddSpec (ks : List String) (kg : KeyGroup) : Add ks kg = AddSpec ks kg := by
  apply Update_congr
  simp only [StrSet.New, StrSet.list, StrSet.Union, List.dedup_idem]
  rw [List.dedup_append, List.dedup_append, dedup_union_left, List.dedup_idem]

/-- A second call of `Update` with the same keys changes nothing at all. -/
theorem Update_again (D : List String) (kg kg2 : KeyGroup) (h : Update D kg = some kg2) :
    Update D kg2 = some kg2 := by
  have hk : kg2.keys = StrSet.New D := (Update_some D kg kg2 h).1
  have h1 : toStart D kg2 = [] := by
    simp [toStart, hk, StrSet.list, StrSet.Difference]
  have h2 : toStop D kg2 = [] := by
    simp [toStop, hk, StrSet.list, StrSet.Difference]
  rw [Update_eq, h1, h2]
  simp only [run, stop, Option.map_some', ← hk]

/-! ## The other operations and sequences of events -/

/-- What a call of `StopKeys` that returns has done. -/
theorem StopKeys_some (ks : List String) (kg kg2 : KeyGroup) (h : StopKeys ks kg = some kg2) :
    kg2.keys = StrSet.Remove kg.keys ks ∧ kg2.wg = kg.wg ∧ kg2.fresh = kg.fresh ∧
    kg2.running = kg.running ∧
    (∀ k, kg2.cancel k = if k ∈ ks then none else kg.cancel k) ∧
    kg2.cancelled = ((stopped ks kg).map Prod.snd).reverse ++ kg.cancelled ∧
    ks.Nodup ∧ ∀ k ∈ ks, kg.cancel k ≠ none := by
  unfold StopKeys at h
  cases hs : stop ks kg with
  | none => simp [hs] at h
  | some kg1 =>
    simp only [hs, Option.map_some', Option.some.injEq] at h
    subst h
    obtain ⟨h1, h2, h3, h4, h5, h6, h7, h8⟩ := stop_some _ _ _ hs
    refine ⟨?_, h2, h3, h4, h5, ?_, h7, h8⟩
    · simp [h1]
    · simp [h6, stopped_snd]

/-- What a call of `Cancel` that returns has done. -/
theorem Cancel_some (kg kg2 : KeyGroup) (h : Cancel kg = some kg2) :
    ∃ f, kg.cancel "main" = some f ∧ kg2 = { kg with cancelled := f :: kg.cancelled } := by
  unfold Cancel at h
  cases hc : kg.cancel "main" with
  | none => simp [hc] at h
  | some f =>
    simp only [hc, Option.some.injEq] at h
    exact ⟨f, rfl, h.symm⟩

/-- What the return of a worker does. -/
theorem workerDone_some (k : String) (c : Ctx) (kg kg2 : KeyGroup)
    (h : workerDone k c kg = some kg2) :
    (k, c) ∈ kg.running ∧
    kg2 = { kg with wg := kg.wg - 1, keys := StrSet.Remove kg.keys [k],
                    running := kg.running.erase (k, c) } := by
  unfold workerDone at h
  by_cases hm : (k, c) ∈ kg.running
  · simp only [hm, if_true, Option.some.injEq] at h
    exact ⟨hm, h.symm⟩
  · simp [hm] at h

theorem mem_Remove (s : StrSet) (items : List String) (k : String) :
    k ∈ StrSet.Remove s items ↔ k ∈ s ∧ k ∉ items := by
  simp [StrSet.Remove]

theorem mem_New (items : List String) (k : String) : k ∈ StrSet.New items ↔ k ∈ items := by
  simp [StrSet.New]

theorem mem_list (s : StrSet) (k : String) : k ∈ StrSet.list s ↔ k ∈ s := by
  simp [StrSet.list]

/-- A property that holds at the start and is kept by every event holds after any sequence. -/
theorem exec_induction (P : KeyGroup → Prop)
    (hstep : ∀ kg e kg2, P kg → step kg e = some kg2 → P kg2) :
    ∀ es kg kg2, P kg → exec es kg = some kg2 → P kg2 := by
  intro es
  induction es with
  | nil =>
    intro kg kg2 hP h
    simp only [exec, Option.some.injEq] at h
    exact h ▸ hP
  | cons e es ih =>
    intro kg kg2 hP h
    simp only [exec] at h
    cases hs : step kg e with
    | none => simp [hs] at h
    | some kg1 =>
      simp only [hs, Option.some_bind] at h
      exact ih kg1 kg2 (hstep kg e kg1 hP hs) h

/-! ## Every active key has a handle -/

theorem Update_HandlesActive (D : List String) (kg kg2 : KeyGroup) (hI : HandlesActive kg)
    (h : Update D kg = some kg2) : HandlesActive kg2 := by
  obtain ⟨kg3, ws, hs, hU, -, -, hws, -, hwc, -, -, -, -, -, -, hsame, hkeys⟩ :=
    Update_spec D kg (fun k hk _ => hI k hk)
  rw [h, Option.some.injEq] at hU
  subst hU
  intro k hk
  rw [hkeys, mem_New] at hk
  by_cases hka : k ∈ kg.keys
  · rw [hsame k (by tauto)]
    exact hI k hka
  · obtain ⟨w, hw, rfl⟩ := List.mem_map.mp ((hws k).mpr ⟨hk, hka⟩)
    rw [hwc w hw]
    simp

theorem step_HandlesActive (kg : KeyGroup) (e : Event) (kg2 : KeyGroup) (hI : HandlesActive kg)
    (h : step kg e = some kg2) : HandlesActive kg2 := by
  cases e with
  | update D => exact Update_HandlesActive D kg kg2 hI h
  | add ks => exact Update_HandlesActive _ kg kg2 hI h
  | stopKeys ks =>
    obtain ⟨h1, -, -, -, h5, -, -, -⟩ := StopKeys_some ks kg kg2 h
    intro k hk
    rw [h1, mem_Remove] at hk
    rw [h5, if_neg hk.2]
    exact hI k hk.1
  | cancel =>
    obtain ⟨f, -, rfl⟩ := Cancel_some kg kg2 h
    exact hI
  | done k c =>
    obtain ⟨-, rfl⟩ := workerDone_some k c kg kg2 h
    intro j hj
    exact hI j ((mem_Remove _ _ _).mp hj).1

theorem NewKeyGroup_HandlesActive : HandlesActive NewKeyGroup := by
  intro k hk
  simp [NewKeyGroup, StrSet.New] at hk

theorem Reachable_HandlesActive (kg : KeyGroup) (h : Reachable kg) : HandlesActive kg := by
  obtain ⟨es, hes⟩ := h
  exact exec_induction HandlesActive step_HandlesActive es _ _ NewKeyGroup_HandlesActive hes

/-! ## The handles of different keys are different -/

/-- A key that `run` starts gets a context of its own, made by this call. -/
theorem run_cancel_started (ks : List String) (kg : KeyGroup) (hnd : ks.Nodup) (k : String)
    (hk : k ∈ ks) :
    ∃ n, (run ks kg).cancel k = some (Ctx.child n) ∧ kg.fresh ≤ n ∧ n < kg.fresh + ks.length ∧
      ∀ j ∈ ks, (run ks kg).cancel j = some (Ctx.child n) → j = k := by
  rw [← started_fst ks kg] at hk
  obtain ⟨w, hw, rfl⟩ := List.mem_map.mp hk
  have hc : w.2 ∈ (started ks kg).map Prod.snd := List.mem_map_of_mem _ hw
  rw [started_snd] at hc
  obtain ⟨n, hn, hn2⟩ := List.mem_map.mp hc
  rw [List.mem_range'_1] at hn
  have hsnd : ((started ks kg).map Prod.snd).Nodup := by
    rw [started_snd]
    exact (List.nodup_range' _ _).map (fun a b hab => by injection hab)
  refine ⟨n, ?_, hn.1, hn.2, ?_⟩
  · rw [hn2]
    exact run_cancel_of_mem ks kg hnd w hw
  · intro j hj hjc
    rw [← started_fst ks kg] at hj
    obtain ⟨v, hv, rfl⟩ := List.mem_map.mp hj
    have hv2 := run_cancel_of_mem ks kg hnd v hv
    rw [hjc, hn2, Option.some.injEq] at hv2
    rw [List.inj_on_of_nodup_map hsnd hv hw hv2.symm]

theorem Update_HandlesApart (D : List String) (kg kg2 : KeyGroup) (hI : HandlesApart kg)
    (h : Update D kg = some kg2) : HandlesApart kg2 := by
  obtain ⟨h1, -, h3, -, h5, -, -⟩ := Update_some D kg kg2 h
  obtain ⟨hlt, hinj, hroot⟩ := hI
  have hval : ∀ k c, kg2.cancel k = some c →
      (k ∈ toStart D kg ∧ ∃ n, c = Ctx.child n ∧ kg.fresh ≤ n ∧
        n < kg.fresh + (toStart D kg).length ∧
        ∀ j ∈ toStart D kg, (run (toStart D kg) kg).cancel j = some (Ctx.child n) → j = k) ∨
      (k ∉ toStart D kg ∧ kg.cancel k = some c) := by
    intro k c hc
    rw [h5] at hc
    by_cases hs : k ∈ toStop D kg
    · simp [hs] at hc
    · rw [if_neg hs] at hc
      by_cases ht : k ∈ toStart D kg
      · left
        obtain ⟨n, hn1, hn2, hn3, hn4⟩ := run_cancel_started _ kg (nodup_toStart D kg) k ht
        rw [hn1, Option.some.injEq] at hc
        exact ⟨ht, n, hc.symm, hn2, hn3, hn4⟩
      · right
        rw [run_cancel_of_not_mem _ _ _ ht] at hc
        exact ⟨ht, hc⟩
  have hrun : ∀ k c, kg2.cancel k = some c → (run (toStart D kg) kg).cancel k = some c := by
    intro k c hc
    rw [h5] at hc
    by_cases hs : k ∈ toStop D kg
    · simp [hs] at hc
    · rwa [if_neg hs] at hc
  refine ⟨?_, ?_, ?_⟩
  · intro k n hc
    rw [h3]
    rcases hval k _ hc with ⟨-, m, hm, -, hm2, -⟩ | ⟨-, hold⟩
    · injection hm with hm
      omega
    · have := hlt k n hold
      omega
  · intro j k c hj hk
    rcases hval j c hj with ⟨hjt, n, hn, hn1, -, hn3⟩ | ⟨hjt, hjold⟩
    · rcases hval k c hk with ⟨hkt, -⟩ | ⟨-, hkold⟩
      · exact (hn3 k hkt (hn ▸ hrun k c hk)).symm
      · rw [hn] at hkold
        have := hlt k n hkold
        omega
    · rcases hval k c hk with ⟨hkt, n, hn, hn1, -, -⟩ | ⟨-, hkold⟩
      · rw [hn] at hjold
        have := hlt j n hjold
        omega
      · exact hinj j k c hjold hkold
  · intro k hk hc
    rw [h1, mem_New] at hk
    rcases hval k _ hc with ⟨-, n, hn, -⟩ | ⟨hkt, hold⟩
    · cases hn
    · rw [mem_toStart] at hkt
      have hka : k ∈ kg.keys := by tauto
      exact hroot k hka hold

theorem step_HandlesApart (kg : KeyGroup) (e : Event) (kg2 : KeyGroup) (hI : HandlesApart kg)
    (h : step kg e = some kg2) : HandlesApart kg2 := by
  cases e with
  | update D => exact Update_HandlesApart D kg kg2 hI h
  | add ks => exact Update_HandlesApart _ kg kg2 hI h
  | stopKeys ks =>
    obtain ⟨h1, -, h3, -, h5, -, -, -⟩ := StopKeys_some ks kg kg2 h
    obtain ⟨hlt, hinj, hroot⟩ := hI
    have hold : ∀ k c, kg2.cancel k = some c → k ∉ ks ∧ kg.cancel k = some c := by
      intro k c hc
      rw [h5] at hc
      by_cases hk : k ∈ ks
      · simp [hk] at hc
      · rw [if_neg hk] at hc
        exact ⟨hk, hc⟩
    refine ⟨?_, ?_, ?_⟩
    · intro k n hc
      rw [h3]
      exact hlt k n (hold k _ hc).2
    · intro j k c hj hk
      exact hinj j k c (hold j c hj).2 (hold k c hk).2
    · intro k hk hc
      rw [h1, mem_Remove] at hk
      exact hroot k hk.1 (hold k _ hc).2
  | cancel =>
    obtain ⟨f, -, rfl⟩ := Cancel_some kg kg2 h
    exact hI
  | done k c =>
    obtain ⟨-, rfl⟩ := workerDone_some k c kg kg2 h
    obtain ⟨hlt, hinj, hroot⟩ := hI
    exact ⟨hlt, hinj, fun j hj => hroot j ((mem_Remove _ _ _).mp hj).1⟩

theorem NewKeyGroup_HandlesApart : HandlesApart NewKeyGroup := by
  refine ⟨?_, ?_, ?_⟩
  · intro k n hc
    simp only [NewKeyGroup, mapSet] at hc
    by_cases hk : k = "main"
    · simp [hk] at hc
    · simp [hk] at hc
  · intro j k c hj hk
    simp only [NewKeyGroup, mapSet] at hj hk
    by_cases hj2 : j = "main"
    · by_cases hk2 : k = "main"
      · rw [hj2, hk2]
      · simp [hk2] at hk
    · simp [hj2] at hj
  · intro k hk
    simp [NewKeyGroup, StrSet.New] at hk

/-- In every state reached from `NewKeyGroup` no active key holds the handle of the root
context, and no context is stored under two keys. -/
theorem Reachable_HandlesApart (kg : KeyGroup) (h : Reachable kg) :
    (∀ k ∈ kg.keys, kg.cancel k ≠ some Ctx.main) ∧
    (∀ j k, j ≠ k → kg.cancel k ≠ none → kg.cancel j ≠ kg.cancel k) := by
  obtain ⟨es, hes⟩ := h
  obtain ⟨-, hinj, hroot⟩ :=
    exec_induction HandlesApart step_HandlesApart es _ _ NewKeyGroup_HandlesApart hes
  refine ⟨hroot, ?_⟩
  intro j k hjk hk hjc
  cases hc : kg.cancel k with
  | none => exact hk hc
  | some c =>
    rw [hc] at hjc
    exact hjk (hinj j k c hjc hc)

/-! ## The claims -/

/-- C1, set-diff correctness of `Update`.  For every key list `D` and every state `kg` in
which every active key has an entry in the handle table, `Update D` returns a state `kg2`
such that: the workers `ws` it has started are one for each key of `D` that was not active,
each once, with the contexts numbered from `kg.fresh` on, the handle of each recorded under
its key and the join counter incremented once for each; the handles `hs` it has called are
those of the keys that were active and are not in `D`, each once, and the entry of each is
gone from the handle table; the entry of every other key, so of every key both active and in
`D`, is unchanged; and the active set is the set of the keys of `D`. -/
theorem Update_set_diff (D : List String) (kg : KeyGroup)
    (h : ∀ k ∈ kg.keys, kg.cancel k ≠ none) :
    ∃ (kg2 : KeyGroup) (ws hs : List (String × Ctx)),
      Update D kg = some kg2 ∧
      kg2.running = kg.running ++ ws ∧
      (ws.map Prod.fst).Nodup ∧
      (∀ k, k ∈ ws.map Prod.fst ↔ k ∈ D ∧ k ∉ kg.keys) ∧
      ws.map Prod.snd = (List.range' kg.fresh ws.length).map Ctx.child ∧
      (∀ w ∈ ws, kg2.cancel w.1 = some w.2) ∧
      kg2.wg = kg.wg + ws.length ∧
      kg2.cancelled = hs.map Prod.snd ++ kg.cancelled ∧
      (hs.map Prod.fst).Nodup ∧
      (∀ k, k ∈ hs.map Prod.fst ↔ k ∈ kg.keys ∧ k ∉ D) ∧
      (∀ p ∈ hs, kg.cancel p.1 = some p.2 ∧ kg2.cancel p.1 = none) ∧
      (∀ k, (k ∈ D ↔ k ∈ kg.keys) → kg2.cancel k = kg.cancel k) ∧
      (∀ k, k ∈ kg2.keys ↔ k ∈ D) := by
  obtain ⟨kg2, ws, hs, h1, h2, h3, h4, h5, h6, h7, -, h9, h10, h11, h12, h13, h14⟩ :=
    Update_spec D kg (fun k hk _ => h k hk)
  refine ⟨kg2, ws, hs, h1, h2, h3, h4, h5, h6, h7, h9, h10, h11, h12, h13, ?_⟩
  intro k
  rw [h14, mem_New]

theorem twoKeys_handles : ∀ k ∈ twoKeys.keys, twoKeys.cancel k ≠ none := by
  decide

/-- The statement C1 at the state `twoKeys` and the keys `b`, `c`. -/
theorem Update_set_diff_witness :
    (∀ k ∈ twoKeys.keys, twoKeys.cancel k ≠ none) ∧
    ∃ (kg2 : KeyGroup) (ws hs : List (String × Ctx)),
      Update ["b", "c"] twoKeys = some kg2 ∧
      kg2.running = twoKeys.running ++ ws ∧
      (ws.map Prod.fst).Nodup ∧
      (∀ k, k ∈ ws.map Prod.fst ↔ k ∈ ["b", "c"] ∧ k ∉ twoKeys.keys) ∧
      ws.map Prod.snd = (List.range' twoKeys.fresh ws.length).map Ctx.child ∧
      (∀ w ∈ ws, kg2.cancel w.1 = some w.2) ∧
      kg2.wg = twoKeys.wg + ws.length ∧
      kg2.cancelled = hs.map Prod.snd ++ twoKeys.cancelled ∧
      (hs.map Prod.fst).Nodup ∧
      (∀ k, k ∈ hs.map Prod.fst ↔ k ∈ twoKeys.keys ∧ k ∉ ["b", "c"]) ∧
      (∀ p ∈ hs, twoKeys.cancel p.1 = some p.2 ∧ kg2.cancel p.1 = none) ∧
      (∀ k, (k ∈ ["b", "c"] ↔ k ∈ twoKeys.keys) → kg2.cancel k = twoKeys.cancel k) ∧
      (∀ k, k ∈ kg2.keys ↔ k ∈ ["b", "c"]) :=
  ⟨twoKeys_handles, Update_set_diff ["b", "c"] twoKeys twoKeys_handles⟩

/-- C7, idempotent reconciliation.  For every key list `D` and every state in which every
active key has a handle, `Update D` returns a state `kg2`, and a second `Update D` in that
state returns the very same state: the list of running workers (no worker is started), the
list of called handles (no handle is called), the active set, the handle table and the join
counter are all as the first call left them. -/
theorem Update_idempotent (D : List String) (kg : KeyGroup)
    (h : ∀ k ∈ kg.keys, kg.cancel k ≠ none) :
    ∃ kg2, Update D kg = some kg2 ∧ Update D kg2 = some kg2 := by
  obtain ⟨kg2, h1⟩ := Update_isSome D kg (fun k hk _ => h k hk)
  exact ⟨kg2, h1, Update_again D kg kg2 h1⟩

/-- The statement C7 at the state `twoKeys` and the keys `b`, `c`, `c`. -/
theorem Update_idempotent_witness :
    (∀ k ∈ twoKeys.keys, twoKeys.cancel k ≠ none) ∧
    ∃ kg2, Update ["b", "c", "c"] twoKeys = some kg2 ∧ Update ["b", "c", "c"] kg2 = some kg2 :=
  ⟨twoKeys_handles, Update_idempotent ["b", "c", "c"] twoKeys twoKeys_handles⟩

/-- C6, `Add` is `Update` on the union.  For every state `kg` and every key list `ks`,
`Add ks` returns, and returns the state that `Update` returns for the union of the active
set and `ks` (`AddSpec`); the workers `ws` it has started are one for each key of `ks` that
was not active, each once also when `ks` repeats a key; no handle is called; the entry of the
handle table of every key that gets no new worker, so of every key already active, is
unchanged; and the active set becomes the union.  The condition that every active key has a
handle is not needed. -/
theorem Add_is_Update_on_union (ks : List String) (kg : KeyGroup) :
    ∃ (kg2 : KeyGroup) (ws : List (String × Ctx)),
      Add ks kg = some kg2 ∧
      AddSpec ks kg = some kg2 ∧
      kg2.running = kg.running ++ ws ∧
      (ws.map Prod.fst).Nodup ∧
      (∀ k, k ∈ ws.map Prod.fst ↔ k ∈ ks ∧ k ∉ kg.keys) ∧
      ws.map Prod.snd = (List.range' kg.fresh ws.length).map Ctx.child ∧
      (∀ w ∈ ws, kg2.cancel w.1 = some w.2) ∧
      kg2.wg = kg.wg + ws.length ∧
      kg2.cancelled = kg.cancelled ∧
      (∀ k, ¬ (k ∈ ks ∧ k ∉ kg.keys) → kg2.cancel k = kg.cancel k) ∧
      (∀ k, k ∈ kg2.keys ↔ k ∈ kg.keys ∨ k ∈ ks) := by
  have hD : ∀ k, k ∈ StrSet.list kg.keys ++ ks ↔ k ∈ kg.keys ∨ k ∈ ks := by
    intro k
    rw [List.mem_append, mem_list]
  obtain ⟨kg2, ws, hs, h1, h2, h3, h4, h5, h6, h7, -, h9, -, h11, -, h13, h14⟩ :=
    Update_spec (StrSet.list kg.keys ++ ks) kg (fun k hk hn => absurd ((hD k).mpr (Or.inl hk)) hn)
  have hnil : hs = [] := by
    cases hs with
    | nil => rfl
    | cons p t =>
      exfalso
      have := (h11 p.1).mp (by simp)
      exact this.2 ((hD p.1).mpr (Or.inl this.1))
  subst hnil
  refine ⟨kg2, ws, h1, ?_, h2, h3, ?_, h5, h6, h7, ?_, ?_, ?_⟩
  · rw [← Add_eq_AddSpec]
    exact h1
  · intro k
    rw [h4, hD]
    tauto
  · simpa using h9
  · intro k hk
    apply h13
    rw [hD]
    tauto
  · intro k
    rw [h14, mem_New, hD]

/-- C10, `Update` and `Add` never hit a missing handle.  In every state reached from
`NewKeyGroup` by a sequence of calls of `Update`, `Add`, `StopKeys` and `Cancel` that have
returned and of worker returns, every active key has an entry in the handle table, and
`Update D` and `Add ks` return for every key list. -/
theorem Update_Add_find_handles (kg : KeyGroup) (h : Reachable kg) :
    (∀ k ∈ kg.keys, kg.cancel k ≠ none) ∧
    (∀ D, ∃ kg2, Update D kg = some kg2) ∧
    (∀ ks, ∃ kg2, Add ks kg = some kg2) := by
  have hI : HandlesActive kg := Reachable_HandlesActive kg h
  exact ⟨hI, fun D => Update_isSome D kg (fun k hk _ => hI k hk),
    fun ks => Update_isSome _ kg (fun k hk _ => hI k hk)⟩

theorem twoKeys_Reachable : Reachable twoKeys :=
  ⟨[Event.add ["a", "b"]], rfl⟩

/-- The statement C10 at the state `twoKeys`, reached by `Add("a", "b")`. -/
theorem Update_Add_find_handles_witness :
    Reachable twoKeys ∧
    (∀ k ∈ twoKeys.keys, twoKeys.cancel k ≠ none) ∧
    (∀ D, ∃ kg2, Update D twoKeys = some kg2) ∧
    (∀ ks, ∃ kg2, Add ks twoKeys = some kg2) :=
  ⟨twoKeys_Reachable, Update_Add_find_handles twoKeys twoKeys_Reachable⟩

/-- What `StopKeys` does for distinct keys that have a handle. -/
theorem StopKeys_spec (ks : List String) (kg : KeyGroup) (hnd : ks.Nodup)
    (hh : ∀ k ∈ ks, kg.cancel k ≠ none) :
    ∃ (kg2 : KeyGroup) (hs : List (String × Ctx)),
      StopKeys ks kg = some kg2 ∧
      kg2.cancelled = hs.map Prod.snd ++ kg.cancelled ∧
      hs.map Prod.fst = ks.reverse ∧
      (∀ p ∈ hs, p.1 ∈ ks ∧ kg.cancel p.1 = some p.2) ∧
      (∀ k, kg2.cancel k = if k ∈ ks then none else kg.cancel k) ∧
      kg2.keys = StrSet.Remove kg.keys ks ∧
      kg2.wg = kg.wg ∧ kg2.running = kg.running ∧ kg2.fresh = kg.fresh := by
  obtain ⟨kg1, hs1⟩ := stop_isSome ks kg hnd hh
  have hS : StopKeys ks kg = some { kg1 with keys := StrSet.Remove kg1.keys ks } := by
    simp [StopKeys, hs1]
  obtain ⟨h1, h2, h3, h4, h5, h6, -, -⟩ := StopKeys_some ks kg _ hS
  refine ⟨_, (stopped ks kg).reverse, hS, ?_, ?_, ?_, h5, h1, h2, h4, h3⟩
  · rw [h6, List.map_reverse]
  · rw [List.map_reverse, stopped_fst ks kg hh]
  · intro p hp
    rw [List.mem_reverse, mem_stopped] at hp
    exact hp

/-- What `StopKeys` leaves alone when no listed key holds the handle of the root context:
the root context is cancelled after the call only if it was before, and so is every context
whose handle is not stored under a listed key. -/
theorem StopKeys_frame (ks : List String) (kg kg2 : KeyGroup)
    (h : StopKeys ks kg = some kg2) (hroot : ∀ k ∈ ks, kg.cancel k ≠ some Ctx.main) :
    (Ctx.main ∈ kg2.cancelled ↔ Ctx.main ∈ kg.cancelled) ∧
    ∀ c, (∀ k ∈ ks, kg.cancel k ≠ some c) → (Cancelled kg2 c ↔ Cancelled kg c) := by
  obtain ⟨-, -, -, -, -, h6, -, -⟩ := StopKeys_some ks kg kg2 h
  have hmem : ∀ c, (∀ k ∈ ks, kg.cancel k ≠ some c) →
      (c ∈ kg2.cancelled ↔ c ∈ kg.cancelled) := by
    intro c hc
    rw [h6, List.mem_append, List.mem_reverse]
    constructor
    · rintro (hm | hm)
      · obtain ⟨p, hp, hp2⟩ := List.mem_map.mp hm
        rw [mem_stopped, hp2] at hp
        exact absurd hp.2 (hc p.1 hp.1)
      · exact hm
    · exact Or.inr
  refine ⟨hmem _ hroot, ?_⟩
  intro c hc
  unfold Cancelled
  rw [hmem _ hroot, hmem c hc]

/-! ## The contexts of the running workers -/

theorem Update_WorkersOwn (D : List String) (kg kg2 : KeyGroup) (hA : HandlesApart kg)
    (hI : WorkersOwn kg) (h : Update D kg = some kg2) : WorkersOwn kg2 := by
  obtain ⟨-, -, h3, h4, h5, -, -⟩ := Update_some D kg kg2 h
  obtain ⟨hlt, hown⟩ := hI
  have hnew : ∀ w ∈ started (toStart D kg) kg,
      ∃ n, w.2 = Ctx.child n ∧ kg.fresh ≤ n ∧ n < kg.fresh + (toStart D kg).length := by
    intro w hw
    have hc : w.2 ∈ (started (toStart D kg) kg).map Prod.snd := List.mem_map_of_mem _ hw
    rw [started_snd] at hc
    obtain ⟨m, hm, hm2⟩ := List.mem_map.mp hc
    rw [List.mem_range'_1] at hm
    exact ⟨m, hm2.symm, hm.1, hm.2⟩
  constructor
  · intro w hw
    rw [h4, List.mem_append] at hw
    rw [h3]
    rcases hw with hw | hw
    · obtain ⟨n, hn, hn2⟩ := hlt w hw
      exact ⟨n, hn, by omega⟩
    · obtain ⟨n, hn, -, hn2⟩ := hnew w hw
      exact ⟨n, hn, hn2⟩
  · intro k c hc w hw hwc
    rw [h5] at hc
    by_cases hs : k ∈ toStop D kg
    · simp [hs] at hc
    · rw [if_neg hs] at hc
      rw [h4, List.mem_append] at hw
      by_cases ht : k ∈ toStart D kg
      · obtain ⟨n, hn1, hn2, -, hn4⟩ := run_cancel_started _ kg (nodup_toStart D kg) k ht
        rw [hn1, Option.some.injEq] at hc
        rcases hw with hw | hw
        · obtain ⟨m, hm, hm2⟩ := hlt w hw
          rw [hwc, ← hc] at hm
          injection hm with hm
          omega
        · have hw1 : w.1 ∈ toStart D kg := by
            rw [← started_fst (toStart D kg) kg]
            exact List.mem_map_of_mem _ hw
          apply hn4 w.1 hw1
          rw [run_cancel_of_mem _ kg (nodup_toStart D kg) w hw, hwc, hc]
      · rw [run_cancel_of_not_mem _ _ _ ht] at hc
        rcases hw with hw | hw
        · exact hown k c hc w hw hwc
        · obtain ⟨n, hn, hn2, -⟩ := hnew w hw
          rw [hwc] at hn
          rw [hn] at hc
          have := hA.1 k n hc
          omega

theorem step_WorkersOwn (kg : KeyGroup) (e : Event) (kg2 : KeyGroup)
    (hI : HandlesApart kg ∧ WorkersOwn kg) (h : step kg e = some kg2) :
    HandlesApart kg2 ∧ WorkersOwn kg2 := by
  refine ⟨step_HandlesApart kg e kg2 hI.1 h, ?_⟩
  obtain ⟨hA, hlt, hown⟩ := hI
  cases e with
  | update D => exact Update_WorkersOwn D kg kg2 hA ⟨hlt, hown⟩ h
  | add ks => exact Update_WorkersOwn _ kg kg2 hA ⟨hlt, hown⟩ h
  | stopKeys ks =>
    obtain ⟨-, -, h3, h4, h5, -, -, -⟩ := StopKeys_some ks kg kg2 h
    constructor
    · intro w hw
      rw [h4] at hw
      rw [h3]
      exact hlt w hw
    · intro k c hc w hw hwc
      rw [h4] at hw
      rw [h5] at hc
      by_cases hk : k ∈ ks
      · simp [hk] at hc
      · rw [if_neg hk] at hc
        exact hown k c hc w hw hwc
  | cancel =>
    obtain ⟨f, -, rfl⟩ := Cancel_some kg kg2 h
    exact ⟨hlt, hown⟩
  | done k c =>
    obtain ⟨-, rfl⟩ := workerDone_some k c kg kg2 h
    exact ⟨fun w hw => hlt w (List.mem_of_mem_erase hw),
      fun j d hd w hw hwd => hown j d hd w (List.mem_of_mem_erase hw) hwd⟩

theorem NewKeyGroup_WorkersOwn : WorkersOwn NewKeyGroup := by
  constructor
  · intro w hw
    simp [NewKeyGroup] at hw
  · intro k c _ w hw
    simp [NewKeyGroup] at hw

theorem Reachable_WorkersOwn (kg : KeyGroup) (h : Reachable kg) :
    HandlesApart kg ∧ WorkersOwn kg := by
  obtain ⟨es, hes⟩ := h
  exact exec_induction (fun s => HandlesApart s ∧ WorkersOwn s) step_WorkersOwn es _ _
    ⟨NewKeyGroup_HandlesApart, NewKeyGroup_WorkersOwn⟩ hes

/-- C3, `StopKeys` is surgical.  For every state reached from `NewKeyGroup` by a sequence of
calls of `Update`, `Add`, `StopKeys` and `Cancel` and of worker returns, and every list `ks`
of pairwise distinct keys that are all active and have a handle: `StopKeys ks` returns; the
handles `hs` it has called are those of the keys of `ks`, each once; the keys of `ks` are gone
from the active set and from the handle table; for every key `j` not in `ks` the membership
in the active set, the entry of the handle table, whether the context of that entry is
cancelled and whether the context of a running worker of `j` is cancelled are unchanged; the
root context is cancelled after the call only if it was before; the join counter and the
running workers are unchanged. -/
theorem StopKeys_surgical (ks : List String) (kg : KeyGroup) (hr : Reachable kg)
    (hnd : ks.Nodup) (hact : ∀ k ∈ ks, k ∈ kg.keys) (hh : ∀ k ∈ ks, kg.cancel k ≠ none) :
    ∃ (kg2 : KeyGroup) (hs : List (String × Ctx)),
      StopKeys ks kg = some kg2 ∧
      kg2.cancelled = hs.map Prod.snd ++ kg.cancelled ∧
      hs.map Prod.fst = ks.reverse ∧
      (∀ p ∈ hs, kg.cancel p.1 = some p.2) ∧
      (∀ k ∈ ks, k ∈ kg.keys ∧ k ∉ kg2.keys ∧ kg2.cancel k = none) ∧
      (∀ j, j ∉ ks → (j ∈ kg2.keys ↔ j ∈ kg.keys) ∧ kg2.cancel j = kg.cancel j ∧
        (∀ c, kg.cancel j = some c → (Cancelled kg2 c ↔ Cancelled kg c)) ∧
        (∀ w ∈ kg.running, w.1 = j → (Cancelled kg2 w.2 ↔ Cancelled kg w.2))) ∧
      (Ctx.main ∈ kg2.cancelled ↔ Ctx.main ∈ kg.cancelled) ∧
      kg2.wg = kg.wg ∧ kg2.running = kg.running := by
  obtain ⟨⟨-, hinj, hroot⟩, -, hown⟩ := Reachable_WorkersOwn kg hr
  obtain ⟨kg2, hs, h1, h2, h3, h4, h5, h6, h7, h8, -⟩ := StopKeys_spec ks kg hnd hh
  obtain ⟨hmain, hframe⟩ :=
    StopKeys_frame ks kg kg2 h1 (fun k hk => hroot k (hact k hk))
  refine ⟨kg2, hs, h1, h2, h3, fun p hp => (h4 p hp).2, ?_, ?_, hmain, h7, h8⟩
  · intro k hk
    refine ⟨hact k hk, ?_, ?_⟩
    · rw [h6, mem_Remove]
      tauto
    · rw [h5, if_pos hk]
  · intro j hj
    refine ⟨?_, ?_, ?_, ?_⟩
    · rw [h6, mem_Remove]
      tauto
    · rw [h5, if_neg hj]
    · intro c hc
      apply hframe
      intro k hk hkc
      exact hj (hinj j k c hc hkc ▸ hk)
    · intro w hw hwj
      apply hframe
      intro k hk hkc
      exact hj (hwj ▸ (hown k w.2 hkc w hw rfl) ▸ hk)

/-- The statement C3 at the state `twoKeys`, reached by `Add("a", "b")`, and the key `a`. -/
theorem StopKeys_surgical_witness :
    Reachable twoKeys ∧ ["a"].Nodup ∧ (∀ k ∈ ["a"], k ∈ twoKeys.keys) ∧
    (∀ k ∈ ["a"], twoKeys.cancel k ≠ none) ∧
    ∃ (kg2 : KeyGroup) (hs : List (String × Ctx)),
      StopKeys ["a"] twoKeys = some kg2 ∧
      kg2.cancelled = hs.map Prod.snd ++ twoKeys.cancelled ∧
      hs.map Prod.fst = ["a"].reverse ∧
      (∀ p ∈ hs, twoKeys.cancel p.1 = some p.2) ∧
      (∀ k ∈ ["a"], k ∈ twoKeys.keys ∧ k ∉ kg2.keys ∧ kg2.cancel k = none) ∧
      (∀ j, j ∉ ["a"] → (j ∈ kg2.keys ↔ j ∈ twoKeys.keys) ∧ kg2.cancel j = twoKeys.cancel j ∧
        (∀ c, twoKeys.cancel j = some c → (Cancelled kg2 c ↔ Cancelled twoKeys c)) ∧
        (∀ w ∈ twoKeys.running, w.1 = j → (Cancelled kg2 w.2 ↔ Cancelled twoKeys w.2))) ∧
      (Ctx.main ∈ kg2.cancelled ↔ Ctx.main ∈ twoKeys.cancelled) ∧
      kg2.wg = twoKeys.wg ∧ kg2.running = twoKeys.running :=
  ⟨twoKeys_Reachable, by decide, by decide, by decide,
    StopKeys_surgical ["a"] twoKeys twoKeys_Reachable (by decide) (by decide) (by decide)⟩

/-- C2 fails on the code: after `Add("a")`, `StopKeys("a")`, `Add("a")`, the return of the
first worker and `Add("a")`, two workers started for the key `"a"` are running and the context
of neither is cancelled.  The tail of the first worker, `kg.keys.Remove(localKey)`, removes
the key by name while the second worker holds it, so the key is not active when the last
`Add` computes what to start, and a third worker is started next to the second. -/
theorem two_live_workers_for_one_key :
    (exec [Event.add ["a"], Event.stopKeys ["a"], Event.add ["a"]] NewKeyGroup).map
      (fun kg => (kg.running, kg.keys)) =
      some ([("a", Ctx.child 1), ("a", Ctx.child 2)], ["a"]) ∧
    (exec [Event.add ["a"], Event.stopKeys ["a"], Event.add ["a"],
        Event.done "a" (Ctx.child 1)] NewKeyGroup).map
      (fun kg => (kg.running, kg.keys, decide (Cancelled kg (Ctx.child 2)))) =
      some ([("a", Ctx.child 2)], [], false) ∧
    (exec [Event.add ["a"], Event.stopKeys ["a"], Event.add ["a"],
        Event.done "a" (Ctx.child 1), Event.add ["a"]] NewKeyGroup).map
      (fun kg => (kg.running, kg.keys, kg.cancelled)) =
      some ([("a", Ctx.child 2), ("a", Ctx.child 3)], ["a"], [Ctx.child 1]) ∧
    (exec [Event.add ["a"], Event.stopKeys ["a"], Event.add ["a"],
        Event.done "a" (Ctx.child 1), Event.add ["a"]] NewKeyGroup).map
      (fun kg => (decide (Cancelled kg (Ctx.child 2)), decide (Cancelled kg (Ctx.child 3)),
        (kg.running.filter (fun w => decide (w.1 = "a" ∧ ¬ Cancelled kg w.2))).length)) =
      some (false, false, 2) := by
  refine ⟨by decide, by decide, by decide, by decide⟩

/-- A worker whose context has been cancelled keeps running until its function returns, and
the key can be started again before that: after `Add("a")`, `StopKeys("a")` the key is not
active while its worker runs, and after one more `Add("a")` two workers started for `"a"` are
running, the first with a cancelled context. -/
theorem restart_before_return :
    (exec [Event.add ["a"], Event.stopKeys ["a"]] NewKeyGroup).map
      (fun kg => (kg.running, kg.keys)) = some ([("a", Ctx.child 1)], []) ∧
    (exec [Event.add ["a"], Event.stopKeys ["a"], Event.add ["a"]] NewKeyGroup).map
      (fun kg => (kg.running, decide (Cancelled kg (Ctx.child 1)),
        decide (Cancelled kg (Ctx.child 2)))) =
      some ([("a", Ctx.child 1), ("a", Ctx.child 2)], true, false) := by
  decide

/-- C4 fails on the code: in the state of a new key group the key `"x"` is not active, and
`StopKeys("x")` panics, because `kg.cancel["x"]` is the nil function; the same holds for the
key `"a"` once it has been added and stopped. -/
theorem StopKeys_inactive_panics :
    Reachable NewKeyGroup ∧ "x" ∉ NewKeyGroup.keys ∧
    (StopKeys ["x"] NewKeyGroup).isNone = true ∧
    (exec [Event.add ["a"], Event.stopKeys ["a"]] NewKeyGroup).map
      (fun kg => (decide ("a" ∈ kg.keys), (StopKeys ["a"] kg).isNone)) =
      some (false, true) := by
  refine ⟨⟨[], rfl⟩, by decide, by decide, by decide⟩

/-- Where `StopKeys` returns for a key that is not active it is no no-op either: in the
state of a new key group the key `"main"` is not active, and `StopKeys("main")` calls the handle of the root context and
deletes it, after which `Cancel` panics; and for a key whose worker has returned, `StopKeys`
calls the handle that was left in the table. -/
theorem StopKeys_inactive_cancels :
    (StopKeys ["main"] NewKeyGroup).map
      (fun kg => (kg.cancelled, kg.cancel "main", (Cancel kg).isNone)) =
      some ([Ctx.main], none, true) ∧
    (exec [Event.add ["a"], Event.done "a" (Ctx.child 1), Event.stopKeys ["a"]]
      NewKeyGroup).map (fun kg => kg.cancelled) = some [Ctx.child 1] := by
  decide

/-- C5 fails on the code: `Add("main", "a")` stores the handle of the worker of the key
`"main"` under `"main"`, over the handle of the root context; `Cancel` then cancels the
context of that worker only, and the worker of `"a"` keeps running with a context that is
not cancelled. -/
theorem Cancel_misses_worker :
    NewKeyGroup.cancel "main" = some Ctx.main ∧
    (exec [Event.add ["main", "a"]] NewKeyGroup).map
      (fun kg => (kg.cancel "main", kg.running)) =
      some (some (Ctx.child 1), [("main", Ctx.child 1), ("a", Ctx.child 2)]) ∧
    (exec [Event.add ["main", "a"], Event.cancel] NewKeyGroup).map
      (fun kg => (kg.running, kg.cancelled, decide (Cancelled kg (Ctx.child 2)))) =
      some ([("main", Ctx.child 1), ("a", Ctx.child 2)], [Ctx.child 1], false) := by
  decide

/-- The root handle can also be deleted, and `Cancel` then panics: after `Add("main")` and `Update` with no key, the
entry `"main"` of the handle table is deleted and `Cancel` panics. -/
theorem Cancel_panics_after_main_key :
    (exec [Event.add ["main"], Event.update []] NewKeyGroup).map
      (fun kg => (kg.cancel "main", (Cancel kg).isNone)) = some (none, true) := by
  decide

/-- C8 fails on the code: after `Add("a")` and the return of the worker of `"a"`, the key
`"a"` is not active and the handle table still has its entry. -/
theorem handle_left_after_return :
    (exec [Event.add ["a"], Event.done "a" (Ctx.child 1)] NewKeyGroup).map
      (fun kg => (kg.keys, kg.cancel "a", kg.wg)) = some ([], some (Ctx.child 1), 0) := by
  decide

/-- The path of `StopKeys` removes both: after `Add("a")` and `StopKeys("a")` both the key and the entry
of the handle table are gone. -/
theorem handle_gone_after_StopKeys :
    (exec [Event.add ["a"], Event.stopKeys ["a"]] NewKeyGroup).map
      (fun kg => (kg.keys, kg.cancel "a")) = some ([], none) := by
  decide

/-- The calls of the test `ExampleKeyGroup` before `CancelWait`, with no worker return:
`Update` cancels the context of `"3"` and starts `"6"`, `StopKeys("2")` cancels the context of
`"2"`, and the keys `1`, `4`, `5`, `6` stay active; six workers have been started. -/
theorem ExampleKeyGroup_trace :
    (exec [Event.add ["1", "2", "3", "4", "5"], Event.update ["1", "2", "4", "5", "6"],
      Event.stopKeys ["2"]] NewKeyGroup).map
        (fun kg => (kg.keys, kg.cancelled, kg.running.length, kg.wg)) =
    some (["1", "4", "5", "6"], [Ctx.child 2, Ctx.child 3], 6, 6) := by
  decide

end keygroup
